import Mathlib

/-!
Verification of the deep-Q-learning training core of this repository.

The definitions below are a shallow embedding of `core/agent.py` and
`core/nn.py`.  One-dimensional tensors are modelled as lists of rationals,
network parameter dictionaries as lists of rationals (positional keys),
and the policy / target networks appearing inside the optimization step
are modelled at their call interface: a function from states to the
four-component return value `[x, aux, rep, next_rep]` of
`Network.forward` (`core/nn.py`, line 182).  Source line numbers are
cited next to each definition.
-/

namespace InvestRepr

open Filter

/-- One-dimensional tensors of scalars are modelled as lists of rationals. -/
abbrev Vec := List ℚ

/-- Dot product of two vectors, the row action of a linear layer. -/
def dot (xs ys : Vec) : ℚ := (List.zipWith (fun a b => a * b) xs ys).sum

/-- An `nn.Linear` module: a weight matrix (list of rows) and a bias vector. -/
structure Linear where
  weight : List Vec
  bias : Vec

/-- Forward pass of `nn.Linear`: each output coordinate is the dot product of a
weight row with the input plus the corresponding bias entry. -/
def Linear.apply (l : Linear) (x : Vec) : Vec :=
  List.zipWith (fun row b => dot row x + b) l.weight l.bias

/-- Elementwise `F.relu`. -/
def reluV (v : Vec) : Vec := v.map (fun x => max 0 x)

/-- The value `nn.Linear(inF, outF)` constructs: `outF` weight rows of length
`inF` and `outF` bias entries, with arbitrary initial entries supplied by the
initializers `w` and `b`. -/
def nnLinear (inF outF : ℕ) (w : ℕ → ℕ → ℚ) (b : ℕ → ℚ) : Linear :=
  { weight := (List.range outF).map (fun i => (List.range inF).map (w i)),
    bias := (List.range outF).map b }

/-- Maximum entry of a vector, the value of `tensor.max(1)[0]` per row
(`core/agent.py`, line 170).  Empty vectors do not occur in the source. -/
def vmax : Vec → ℚ
  | [] => 0
  | x :: xs => xs.foldl max x

/-- One row of `tensor.gather(1, index)`: select the entry at the given index
(`core/agent.py`, lines 166, 208, 220, 222). -/
def gather (q : Vec) (a : ℕ) : ℚ := q.getD a 0

/-- The value of `nn.MSELoss()(pred, tgt)`: mean over all elements of the
squared differences (`core/agent.py`, lines 175-178). -/
def mseLoss (pred tgt : Vec) : ℚ :=
  (List.zipWith (fun p q => (p - q) ^ 2) pred tgt).sum / (pred.length : ℚ)

/-- The four-component return value `[x, aux, rep, next_rep]` of
`Network.forward` (`core/nn.py`, line 182).  `aux` and `nextRep` are `None`
for configurations that do not produce them (`core/nn.py`, lines 161-175). -/
structure NetOutput where
  q : Vec
  aux : Option Vec
  rep : Vec
  nextRep : Option Vec

/-- A stored experience step.  The six fields follow the push call sites of
`core/agent.py` (lines 281, 285, 299, 321, 324): the replay-memory record type
itself lives in `core/utils.py`, which only its callers show. -/
structure Transition (σ : Type) where
  state : σ
  action : ℕ
  next_state : Option σ
  reward : ℚ
  next_action : Option ℕ
  virtual_reward : Option ℚ
deriving DecidableEq

/-- The recognized values of the `use_aux` configuration option
(`core/agent.py`, lines 49, 185-227; `core/nn.py`, lines 142-151).
`noneV` is Python `None` and `no_aux` the explicit string. -/
inductive AuxKind where
  | noneV
  | ir
  | reward
  | sf
  | sfReward
  | vr1
  | vr5
  | no_aux
deriving DecidableEq

/-- Which auxiliary variants need the next action and next state
(`core/agent.py`, lines 49-52). -/
def needNext : AuxKind → Bool
  | .sf | .sfReward | .vr1 | .vr5 => true
  | _ => false

/-- The virtual-value-function variants (`core/agent.py`, lines 218, 278). -/
def isVVF : AuxKind → Bool
  | .vr1 | .vr5 => true
  | _ => false

/-! ### The action-value head of `Network` (`core/nn.py`, lines 132-182)

The representation network (`rep_net`) is modelled at its interface as a
function from states to representation vectors; the claims below concern only
the fully-connected action-value head stacked on top of it. -/

/-- The three fully-connected layers of the action-value head, as constructed
by `Network.__init__` (`core/nn.py`, lines 137-140, 153-154):
`q_network_fc1 = nn.Linear(640 if use_fta else 32, 64)`,
`q_network_fc2 = nn.Linear(64, 64)`, `q_network_fc3 = nn.Linear(64, 4)`. -/
structure Network where
  q_network_fc1 : Linear
  q_network_fc2 : Linear
  q_network_fc3 : Linear

/-- Construction of the action-value head with arbitrary parameter
initializers, following `core/nn.py` lines 137-140 and 153-154. -/
def mkNetwork (useFta : Bool) (w1 w2 w3 : ℕ → ℕ → ℚ) (b1 b2 b3 : ℕ → ℚ) : Network :=
  { q_network_fc1 := nnLinear (if useFta then 640 else 32) 64 w1 b1,
    q_network_fc2 := nnLinear 64 64 w2 b2,
    q_network_fc3 := nnLinear 64 4 w3 b3 }

/-- The value-network part of `Network.forward` (`core/nn.py`, lines 178-180):
`x = relu(fc1 rep); x = relu(fc2 x); x = fc3 x`. -/
def Network.qForward (n : Network) (rep : Vec) : Vec :=
  n.q_network_fc3.apply (reluV (n.q_network_fc2.apply (reluV (n.q_network_fc1.apply rep))))

/-- The primary action-value output of the network on a state: the
representation network (modelled at its interface by `repNet`) followed by
the action-value head (`core/nn.py`, lines 156-182). -/
def networkQ {σ : Type} (n : Network) (repNet : σ → Vec) (s : σ) : Vec :=
  n.qForward (repNet s)

/-- Modelled from the spec: the action-space cardinality of the `MazEnv`
environment, whose implementation is not part of the analyzed sources.  The
action enumeration in `main.py` (DOWN, RIGHT, UP, LEFT as 0..3) and the
spec's action-value-head description fix it at 4. -/
def mazEnvActionCount : ℕ := 4

/-! ### Exploration scheduling (`core/agent.py`, lines 77-102) -/

/-- The exploration threshold computed on every `select_action` call
(`core/agent.py`, lines 90-91):
`eps_end + (eps_start - eps_end) * exp(-1. * steps_done / eps_decay)`. -/
noncomputable def epsThreshold (epsStart epsEnd epsDecay : ℝ) (steps : ℕ) : ℝ :=
  epsEnd + (epsStart - epsEnd) * Real.exp (-1 * (steps : ℝ) / epsDecay)

/-- The effect of one `select_action` call on the step counter
(`core/agent.py`, line 92): `self.steps_done += 1`. -/
def selectActionSteps (steps : ℕ) : ℕ := steps + 1

/-! ### Target synchronization (`core/agent.py`, lines 309-314, 342-344) -/

/-- One soft target update over a parameter dictionary, keys positional
(`core/agent.py`, lines 310-314): each target entry becomes
`policy * tau + target * (1 - tau)`. -/
def softUpdateDict (tau : ℚ) (policyD targetD : List ℚ) : List ℚ :=
  List.zipWith (fun p q => p * tau + q * (1 - tau)) policyD targetD

/-! ### Agent state (`core/agent.py`, lines 38-75) -/

/-- The mutable agent state touched by the claims: the two parameter
dictionaries, the replay memory contents, and the exploration counter. -/
structure AgentState (σ : Type) where
  policyParams : List ℚ
  targetParams : List ℚ
  memory : List (Transition σ)
  steps_done : ℕ

/-- Agent construction (`core/agent.py`, lines 63-74): both networks are
created with their own fresh parameters, then
`target_net.load_state_dict(policy_net.state_dict())` overwrites the target
parameters with a copy of the policy parameters; the replay memory starts
empty and `steps_done` at 0. -/
def agentInit (σ : Type) (policyInit targetInit : List ℚ) : AgentState σ :=
  let st : AgentState σ :=
    { policyParams := policyInit, targetParams := targetInit, memory := [], steps_done := 0 }
  { st with targetParams := st.policyParams }

/-- A hard target synchronization
(`core/agent.py`, line 344, also line 65):
`target_net.load_state_dict(policy_net.state_dict())`. -/
def hardSync {σ : Type} (st : AgentState σ) : AgentState σ :=
  { st with targetParams := st.policyParams }

/-- The state effect of `Agent.optimize` (`core/agent.py`, lines 135-234):
if the replay memory holds fewer than `batch_size` transitions the function
returns at once (line 142-143); otherwise the gradient step updates the
policy parameters (modelled at its interface by `upd`) and never touches the
target parameters. -/
def optimizeStep {σ : Type} (batchSize : ℕ) (upd : List ℚ → List ℚ)
    (st : AgentState σ) : AgentState σ :=
  if st.memory.length < batchSize then st
  else { st with policyParams := upd st.policyParams }

/-! ### The optimization step's loss pipeline (`core/agent.py`, lines 141-227)

The batch below is the list of sampled transitions (`core/agent.py`,
lines 144-145); zipping its columns reproduces `Transition(*zip(*transitions))`. -/

/-- The mask of non-final states (`core/agent.py`, lines 150-151). -/
def nonFinalMask {σ : Type} (batch : List (Transition σ)) : List Bool :=
  batch.map (fun tr => tr.next_state.isSome)

/-- The concatenation of the non-`None` next states
(`core/agent.py`, lines 152-153). -/
def nonFinalNextStates {σ : Type} (batch : List (Transition σ)) : List σ :=
  batch.filterMap (fun tr => tr.next_state)

/-- The policy net's Q-values gathered at the taken actions
(`core/agent.py`, lines 165-166):
`net_return[0].gather(1, action_batch)`. -/
def stateActionValues {σ : Type} (policy : σ → NetOutput) (batch : List (Transition σ)) : Vec :=
  batch.map (fun tr => gather (policy tr.state).q tr.action)

/-- Masked assignment into a zero vector: the effect of
`next_state_values[non_final_mask] = vals` on `torch.zeros(batch_size)`
(`core/agent.py`, lines 168-170).  Positions with a false mask keep the
value 0; positions with a true mask consume the next assigned value in
order. -/
def maskedScatter : List Bool → List ℚ → List ℚ
  | [], _ => []
  | false :: ms, vs => 0 :: maskedScatter ms vs
  | true :: ms, [] => 0 :: maskedScatter ms []
  | true :: ms, v :: vs => v :: maskedScatter ms vs

/-- The bootstrap column `next_state_values` (`core/agent.py`, lines 168-170):
zeros overwritten at the non-final positions with
`target_net(non_final_next_states)[0].max(1)[0]`. -/
def nextStateValues {σ : Type} (target : σ → NetOutput) (batch : List (Transition σ)) : Vec :=
  maskedScatter (nonFinalMask batch)
    ((nonFinalNextStates batch).map (fun s => vmax (target s).q))

/-- The regression targets `expected_state_action_values`
(`core/agent.py`, line 173): `next_state_values * gamma + reward_batch`. -/
def expectedStateActionValues {σ : Type} (target : σ → NetOutput) (gamma : ℚ)
    (batch : List (Transition σ)) : Vec :=
  List.zipWith (fun v tr => v * gamma + tr.reward) (nextStateValues target batch) batch

/-- The primary TD loss (`core/agent.py`, lines 175-178):
`nn.MSELoss()(state_action_values, expected_state_action_values)`. -/
def primaryLoss {σ : Type} (policy target : σ → NetOutput) (gamma : ℚ)
    (batch : List (Transition σ)) : ℚ :=
  mseLoss (stateActionValues policy batch) (expectedStateActionValues target gamma batch)

/-- Modelled from the spec (refinement form of `core/agent.py`, lines 168-170):
the per-sample bootstrap value — 0 for a terminal transition (absent
`next_state`), otherwise the maximum of the target network's primary
action-value head at the next state. -/
def bootstrapValue {σ : Type} (target : σ → NetOutput) (tr : Transition σ) : ℚ :=
  match tr.next_state with
  | none => 0
  | some ns => vmax (target ns).q

/-! ### The virtual-value-function auxiliary branch
(`core/agent.py`, lines 218-227).  In the source the batch columns for this
branch are produced by `torch.cat`, which presupposes that every sampled
transition carries `next_state`, `next_action` and `virtual_reward`; the
embedding totalizes the column extraction with defaults that the theorems
rule out by hypothesis. -/

/-- The auxiliary head's values gathered at the taken actions
(`core/agent.py`, line 220): `net_return[1].gather(1, action_batch)`. -/
def vvfActionValues {σ : Type} (policy : σ → NetOutput) (batch : List (Transition σ)) : Vec :=
  batch.map (fun tr => gather ((policy tr.state).aux.getD []) tr.action)

/-- The target auxiliary head at the next states, gathered at the stored next
actions (`core/agent.py`, line 222):
`target_net(next_state_batch)[1].gather(1, next_action_batch)`. -/
def vvfNextStateActionValues {σ : Type} [Inhabited σ] (target : σ → NetOutput)
    (batch : List (Transition σ)) : Vec :=
  batch.map (fun tr =>
    gather ((target (tr.next_state.getD default)).aux.getD []) (tr.next_action.getD 0))

/-- The auxiliary bootstrapped values (`core/agent.py`, line 223):
`virtual_reward_batch + gamma * next_state_virtual_action_values`. -/
def vvfBootstrappedValues {σ : Type} [Inhabited σ] (target : σ → NetOutput) (gamma : ℚ)
    (batch : List (Transition σ)) : Vec :=
  List.zipWith (fun tr v => tr.virtual_reward.getD 0 + gamma * v)
    batch (vvfNextStateActionValues target batch)

/-- The auxiliary loss of the virtual-value variants
(`core/agent.py`, lines 225-227). -/
def vvfAuxLoss {σ : Type} [Inhabited σ] (policy target : σ → NetOutput) (gamma : ℚ)
    (batch : List (Transition σ)) : ℚ :=
  mseLoss (vvfActionValues policy batch) (vvfBootstrappedValues target gamma batch)

/-- Concrete networks and transitions used by witnesses. -/
def wPolicy : ℕ → NetOutput := fun s =>
  { q := [(s : ℚ) * 10, 1], aux := some [(s : ℚ), 3], rep := [], nextRep := none }

def wTarget : ℕ → NetOutput := fun s =>
  { q := [(s : ℚ), 2 * (s : ℚ) + 1], aux := some [(s : ℚ) + 5, (s : ℚ)], rep := [], nextRep := none }

/-- A terminal transition (absent next state). -/
def wTr1 : Transition ℕ :=
  { state := 1, action := 0, next_state := none, reward := 5,
    next_action := none, virtual_reward := none }

/-- A non-terminal transition with stored next action and virtual reward. -/
def wTr2 : Transition ℕ :=
  { state := 2, action := 1, next_state := some 3, reward := 7,
    next_action := some 1, virtual_reward := some 11 }

/-- A concrete target network whose auxiliary head's gathered value differs
from that head's maximum, separating a gather from an argmax. -/
def cTarget : Bool → NetOutput := fun _ =>
  { q := [1, 2], aux := some [9, 4], rep := [], nextRep := none }

/-- A concrete non-terminal transition with stored next action 1. -/
def cTr : Transition Bool :=
  { state := false, action := 0, next_state := some true, reward := 0,
    next_action := some 1, virtual_reward := some 3 }

/-! ### The per-episode step loop (`core/agent.py`, lines 272-335)

The loop is embedded as a fuel-indexed recursion that records an event trace
and the list of transitions pushed to replay memory, indexed by the step each
transition belongs to.  The environment is modelled at its interface
(`env.step`) by a function from the step index to the step outcome, and the
chosen actions by an oracle from the step index; the epsilon-greedy internals
of `select_action` are embedded separately (`epsThreshold`,
`selectActionSteps`). -/

/-- Outcome of one `env.step` call (`core/agent.py`, line 289), with the
`virtual-reward` entry of `info` (`core/agent.py`, lines 279, 320). -/
structure StepResult (σ : Type) where
  obs : σ
  reward : ℚ
  terminated : Bool
  truncated : Bool
  virtualReward : ℚ

/-- The loop-carried variables `previous_state`, `previous_action`, the last
reward and the last `virtual-reward` (`core/agent.py`, lines 279-281,
293, 303-304). -/
structure PendingInfo (σ : Type) where
  prevState : σ
  prevAction : ℕ
  prevReward : ℚ
  prevVR : ℚ
deriving DecidableEq

/-- Trace events of the step loop: an action selection, a push of the
transition belonging to a given step, an environment step, and a soft
target update. -/
inductive Ev where
  | select (t : ℕ)
  | pushE (t : ℕ)
  | envE (t : ℕ)
  | softE (t : ℕ)
deriving DecidableEq

/-- One episode of `Agent.train` (`core/agent.py`, lines 272-335), recording
the event trace and the pushed transitions.  Iteration `t` selects action
`a_t`; when the auxiliary variant needs the next action and `t > 0` it first
pushes the pending step-`(t-1)` transition (lines 275-286); it then steps the
environment (line 289), pushes the step-`t` transition immediately when no
next action is needed (lines 298-300), applies the soft target update when
enabled (lines 309-314), and on termination or horizon overrun flushes the
step-`t` transition for next-action variants (lines 317-325). -/
def episodeLoop {σ : Type} (aux : AuxKind) (soft : Bool) (horizon : ℕ)
    (env : ℕ → StepResult σ) (acts : ℕ → ℕ) :
    ℕ → ℕ → σ → PendingInfo σ → List Ev × List (ℕ × Transition σ)
  | 0, _, _, _ => ([], [])
  | fuel + 1, t, s, pend =>
    let a := acts t
    let mid : List Ev × List (ℕ × Transition σ) :=
      if needNext aux = true ∧ 0 < t then
        ([Ev.pushE (t - 1)],
         [(t - 1, { state := pend.prevState, action := pend.prevAction,
                    next_state := some s, reward := pend.prevReward,
                    next_action := some a,
                    virtual_reward := if isVVF aux = true then some pend.prevVR else none })])
      else ([], [])
    let res := env t
    let done := res.terminated || res.truncated
    let imm : List Ev × List (ℕ × Transition σ) :=
      if needNext aux = true then ([], [])
      else
        ([Ev.pushE t],
         [(t, { state := s, action := a, next_state := some res.obs,
                reward := res.reward, next_action := none, virtual_reward := none })])
    let softEvs : List Ev := if soft = true then [Ev.softE t] else []
    if done = true ∨ horizon < t then
      let flush : List Ev × List (ℕ × Transition σ) :=
        if needNext aux = true then
          ([Ev.pushE t],
           [(t, { state := s, action := a, next_state := some res.obs,
                  reward := res.reward, next_action := some a,
                  virtual_reward := if isVVF aux = true then some res.virtualReward else none })])
        else ([], [])
      (Ev.select t :: (mid.1 ++ (Ev.envE t :: (imm.1 ++ softEvs ++ flush.1))),
       mid.2 ++ imm.2 ++ flush.2)
    else
      let rest := episodeLoop aux soft horizon env acts fuel (t + 1) res.obs
        { prevState := s, prevAction := a, prevReward := res.reward,
          prevVR := res.virtualReward }
      (Ev.select t :: (mid.1 ++ (Ev.envE t :: (imm.1 ++ softEvs ++ rest.1))),
       mid.2 ++ imm.2 ++ rest.2)

/-! ### The per-episode tail of `Agent.train` (`core/agent.py`, lines 260-348)

For the target-synchronization schedule only the episodic returns matter;
each episode is abstracted to its return, supplied as a list.  The fold
mirrors the order of the source: the streak update (lines 328-331), the
early break on reaching the streak threshold (lines 338-340, which happens
before the synchronization check), and the hard synchronization gate
(lines 342-344). -/

/-- Episode indices at which the hard target synchronization runs,
processing episodes `i, i+1, ...` with the given streak counter
(`core/agent.py`, lines 260-344). -/
def hardSyncEvents (soft : Bool) (tu thr : ℕ) : ℕ → ℕ → List ℚ → List ℕ
  | _, _, [] => []
  | i, consec, r :: rs =>
    let consec2 := if r = 1 then consec + 1 else 0
    if consec2 = thr then []
    else
      (if soft = false ∧ i % tu = 0 then [i] else []) ++
        hardSyncEvents soft tu thr (i + 1) consec2 rs

/-- Number of episodes whose per-episode tail completes before the
consecutive-success streak reaches the threshold and breaks training
(`core/agent.py`, lines 338-340). -/
def episodesBeforeStop (thr : ℕ) : ℕ → List ℚ → ℕ
  | _, [] => 0
  | consec, r :: rs =>
    let consec2 := if r = 1 then consec + 1 else 0
    if consec2 = thr then 0 else episodesBeforeStop thr consec2 rs + 1

/-! ### Ordering predicates on traces -/

/-- Event `a` occurs somewhere strictly before event `b` in the list. -/
def occursBefore {α : Type} (a b : α) (l : List α) : Prop :=
  ∃ l1 l2 l3, l = l1 ++ a :: (l2 ++ b :: l3)

/-- Event `b` occurs immediately after event `a` in the list. -/
def adjacentIn {α : Type} (a b : α) (l : List α) : Prop :=
  ∃ l1 l2, l = l1 ++ a :: b :: l2

/-! ### Helper lemmas -/

lemma occursBefore_cons {α : Type} (x : α) {a b : α} {l : List α}
    (h : occursBefore a b l) : occursBefore a b (x :: l) := by
  obtain ⟨l1, l2, l3, rfl⟩ := h
  exact ⟨x :: l1, l2, l3, rfl⟩

lemma occursBefore_append {α : Type} (l0 : List α) {a b : α} {l : List α}
    (h : occursBefore a b l) : occursBefore a b (l0 ++ l) := by
  induction l0 with
  | nil => exact h
  | cons x xs ih => exact occursBefore_cons x ih

lemma adjacentIn_cons {α : Type} (x : α) {a b : α} {l : List α}
    (h : adjacentIn a b l) : adjacentIn a b (x :: l) := by
  obtain ⟨l1, l2, rfl⟩ := h
  exact ⟨x :: l1, l2, rfl⟩

lemma adjacentIn_append {α : Type} (l0 : List α) {a b : α} {l : List α}
    (h : adjacentIn a b l) : adjacentIn a b (l0 ++ l) := by
  induction l0 with
  | nil => exact h
  | cons x xs ih => exact adjacentIn_cons x ih

lemma softUpdateDict_getD (tau : ℚ) :
    ∀ (p q : List ℚ) (i : ℕ), i < p.length → i < q.length →
      (softUpdateDict tau p q).getD i 0 = p.getD i 0 * tau + q.getD i 0 * (1 - tau)
  | [], _, i, hp, _ => by simp at hp
  | _ :: _, [], i, _, hq => by simp at hq
  | a :: p, b :: q, 0, _, _ => by simp [softUpdateDict]
  | a :: p, b :: q, i + 1, hp, hq => by
    have ih := softUpdateDict_getD tau p q i (by simpa using hp) (by simpa using hq)
    simpa [softUpdateDict] using ih

lemma nextStateValues_eq_map {σ : Type} (target : σ → NetOutput) :
    ∀ batch : List (Transition σ),
      nextStateValues target batch = batch.map (bootstrapValue target)
  | [] => rfl
  | tr :: rest => by
    have ih := nextStateValues_eq_map target rest
    cases h : tr.next_state with
    | none =>
      simp only [nextStateValues, nonFinalMask, nonFinalNextStates, List.map_cons,
        List.filterMap_cons, h, Option.isSome_none, maskedScatter, bootstrapValue] at ih ⊢
      exact congrArg (0 :: ·) ih
    | some ns =>
      simp only [nextStateValues, nonFinalMask, nonFinalNextStates, List.map_cons,
        List.filterMap_cons, h, Option.isSome_some, maskedScatter, bootstrapValue] at ih ⊢
      exact congrArg _ ih

lemma zipWith_map_left {α β : Type} (f : β → α → β) (g : α → β) :
    ∀ l : List α, List.zipWith f (l.map g) l = l.map (fun x => f (g x) x)
  | [] => rfl
  | x :: xs => by simp [zipWith_map_left f g xs]

lemma zipWith_left_map {α β : Type} (f : α → β → β) (g : α → β) :
    ∀ l : List α, List.zipWith f l (l.map g) = l.map (fun x => f x (g x))
  | [] => rfl
  | x :: xs => by simp [zipWith_left_map f g xs]

lemma zipWith_map_same {α β γ : Type} (f : β → β → γ) (g h : α → β) :
    ∀ l : List α, List.zipWith f (l.map g) (l.map h) = l.map (fun x => f (g x) (h x))
  | [] => rfl
  | x :: xs => by simp [zipWith_map_same f g h xs]

/-! ### Claim theorems -/

/-- C5.  For every input state, the primary action-value head of the value
network outputs a vector whose length equals the action-space cardinality of
the environment (4 for MazEnv): `q_network_fc3 = nn.Linear(64, 4)` has four
output rows, so the head's output always has length 4. -/
theorem q_head_output_size_matches_action_space (σ : Type) (useFta : Bool)
    (w1 w2 w3 : ℕ → ℕ → ℚ) (b1 b2 b3 : ℕ → ℚ) (repNet : σ → Vec) (s : σ) :
    (networkQ (mkNetwork useFta w1 w2 w3 b1 b2 b3) repNet s).length = mazEnvActionCount := by
  simp [networkQ, Network.qForward, mkNetwork, nnLinear, Linear.apply,
    mazEnvActionCount, List.length_zipWith]

/-- C9.  Invoking the optimization step with replay occupancy strictly below
the batch size is a silent no-op: the agent state, in particular both
parameter dictionaries, is returned unchanged, whatever the gradient update
would have been. -/
theorem optimize_noop_below_batch_size (σ : Type) (B : ℕ) (upd : List ℚ → List ℚ)
    (st : AgentState σ) (h : st.memory.length < B) :
    optimizeStep B upd st = st
    ∧ (optimizeStep B upd st).policyParams = st.policyParams
    ∧ (optimizeStep B upd st).targetParams = st.targetParams := by
  have heq : optimizeStep B upd st = st := by simp [optimizeStep, h]
  exact ⟨heq, by rw [heq], by rw [heq]⟩

theorem optimize_noop_below_batch_size_witness :
    (AgentState.mk [1] [2] ([] : List (Transition Bool)) 0).memory.length < 4
    ∧ optimizeStep 4 (fun l => 0 :: l) (AgentState.mk [1] [2] ([] : List (Transition Bool)) 0)
        = AgentState.mk [1] [2] [] 0 :=
  ⟨by decide,
   (optimize_noop_below_batch_size Bool 4 (fun l => 0 :: l)
     (AgentState.mk [1] [2] [] 0) (by decide)).1⟩

/-- C10.  Immediately after agent construction the target parameters are an
exact copy of the freshly initialized policy parameters (independent of the
target network's own initialization), and a separate copy rather than a view:
overwriting the policy parameters afterwards leaves the target parameters at
the original values. -/
theorem target_net_initialized_as_policy_copy (σ : Type) (pInit tInit : List ℚ) :
    (agentInit σ pInit tInit).targetParams = (agentInit σ pInit tInit).policyParams
    ∧ (agentInit σ pInit tInit).targetParams = pInit
    ∧ ∀ f : List ℚ → List ℚ,
        ({ agentInit σ pInit tInit with
            policyParams := f (agentInit σ pInit tInit).policyParams } : AgentState σ).targetParams
          = pInit :=
  ⟨rfl, rfl, fun _ => rfl⟩

/-- C2.  In an optimization step the regression target of each sampled
transition equals `reward + gamma * b` with `b = 0` for a terminal transition
(absent `next_state`) and otherwise `b` the maximum of the target network's
primary head at the next state; and the primary loss is the mean over the
batch of the squared differences between the gathered policy Q-values and
these targets. -/
theorem primary_td_target_and_loss (σ : Type) (policy target : σ → NetOutput)
    (gamma : ℚ) (B : ℕ) (batch : List (Transition σ)) (hB : batch.length = B) :
    expectedStateActionValues target gamma batch
      = batch.map (fun tr => tr.reward + gamma * bootstrapValue target tr)
    ∧ primaryLoss policy target gamma batch
      = (batch.map (fun tr =>
          (gather (policy tr.state).q tr.action
            - (tr.reward + gamma * bootstrapValue target tr)) ^ 2)).sum / (B : ℚ) := by
  have h1 : expectedStateActionValues target gamma batch
      = batch.map (fun tr => tr.reward + gamma * bootstrapValue target tr) := by
    unfold expectedStateActionValues
    rw [nextStateValues_eq_map]
    rw [zipWith_map_left (fun v tr => v * gamma + tr.reward) (bootstrapValue target) batch]
    exact List.map_congr_left fun tr _ => by ring
  refine ⟨h1, ?_⟩
  unfold primaryLoss mseLoss stateActionValues
  rw [h1, zipWith_map_same (fun p q => (p - q) ^ 2)
    (fun tr => gather (policy tr.state).q tr.action)
    (fun tr => tr.reward + gamma * bootstrapValue target tr) batch]
  simp [hB]

theorem primary_td_target_and_loss_witness :
    ([wTr1, wTr2] : List (Transition ℕ)).length = 2
    ∧ (expectedStateActionValues wTarget (1/2) [wTr1, wTr2]
        = [wTr1, wTr2].map (fun tr => tr.reward + (1/2) * bootstrapValue wTarget tr)
      ∧ primaryLoss wPolicy wTarget (1/2) [wTr1, wTr2]
        = ([wTr1, wTr2].map (fun tr =>
            (gather (wPolicy tr.state).q tr.action
              - (tr.reward + (1/2) * bootstrapValue wTarget tr)) ^ 2)).sum / ((2 : ℕ) : ℚ)) :=
  ⟨rfl, primary_td_target_and_loss ℕ wPolicy wTarget (1/2) 2 [wTr1, wTr2] rfl⟩

/-- C3.  Under the virtual-reward variants the auxiliary bootstrap term
gathers the target auxiliary head at the stored next action, while the
primary bootstrap term is the maximum of the target primary head at the next
state and does not depend on the stored next action; on a concrete network
the gathered auxiliary value differs from the auxiliary head's maximum, so
the auxiliary term is not an argmax. -/
theorem vvf_bootstrap_gather_primary_max (σ : Type) [Inhabited σ]
    (target : σ → NetOutput) (gamma : ℚ) (tr : Transition σ) (ns : σ) (na : ℕ)
    (h1 : tr.next_state = some ns) (h2 : tr.next_action = some na) :
    vvfBootstrappedValues target gamma [tr]
      = [tr.virtual_reward.getD 0 + gamma * gather ((target ns).aux.getD []) na]
    ∧ bootstrapValue target tr = vmax (target ns).q
    ∧ (∀ na2 : Option ℕ,
        bootstrapValue target { tr with next_action := na2 } = bootstrapValue target tr)
    ∧ vvfNextStateActionValues cTarget [cTr] = [gather ((cTarget true).aux.getD []) 1]
    ∧ gather ((cTarget true).aux.getD []) 1 ≠ vmax ((cTarget true).aux.getD []) := by
  refine ⟨?_, ?_, ?_, by decide, by decide⟩
  · simp [vvfBootstrappedValues, vvfNextStateActionValues, h1, h2]
  · simp [bootstrapValue, h1]
  · intro na2; simp [bootstrapValue]

theorem vvf_bootstrap_gather_primary_max_witness :
    cTr.next_state = some true
    ∧ vvfBootstrappedValues cTarget (1/2) [cTr]
        = [cTr.virtual_reward.getD 0 + (1/2) * gather ((cTarget true).aux.getD []) 1] :=
  ⟨rfl, (vvf_bootstrap_gather_primary_max Bool cTarget (1/2) cTr true 1 rfl rfl).1⟩

lemma epsThreshold_eq (es ee d : ℝ) (n : ℕ) :
    epsThreshold es ee d n = ee + (es - ee) * Real.exp (-((n : ℝ) / d)) := by
  simp [epsThreshold, neg_div]

/-- C6.  The exploration threshold equals
`eps_end + (eps_start - eps_end) * exp(-steps/eps_decay)`; for
`eps_start > eps_end` and `eps_decay > 0` it is strictly decreasing in the
step counter, equals `eps_start` at step 0 and converges to `eps_end`; and
every `select_action` call increments the step counter by exactly 1. -/
theorem eps_threshold_decay (es ee d : ℝ) (h1 : ee < es) (h2 : 0 < d) :
    StrictAnti (fun n : ℕ => epsThreshold es ee d n)
    ∧ epsThreshold es ee d 0 = es
    ∧ Tendsto (fun n : ℕ => epsThreshold es ee d n) atTop (nhds ee)
    ∧ ∀ s : ℕ, selectActionSteps s = s + 1 := by
  refine ⟨?_, ?_, ?_, fun s => rfl⟩
  · intro m n hmn
    show epsThreshold es ee d n < epsThreshold es ee d m
    rw [epsThreshold_eq, epsThreshold_eq]
    have hexp : Real.exp (-((n : ℝ) / d)) < Real.exp (-((m : ℝ) / d)) := by
      apply Real.exp_lt_exp.mpr
      have : (m : ℝ) / d < (n : ℝ) / d := by
        apply div_lt_div_of_pos_right _ h2
        exact_mod_cast hmn
      linarith
    have hpos : (0 : ℝ) < es - ee := sub_pos.mpr h1
    have := mul_lt_mul_of_pos_left hexp hpos
    linarith
  · rw [epsThreshold_eq]
    simp
  · have hdiv : Tendsto (fun n : ℕ => (n : ℝ) / d) atTop atTop :=
      tendsto_natCast_atTop_atTop.atTop_div_const h2
    have hneg : Tendsto (fun n : ℕ => -((n : ℝ) / d)) atTop atBot :=
      tendsto_neg_atTop_atBot.comp hdiv
    have hexp : Tendsto (fun n : ℕ => Real.exp (-((n : ℝ) / d))) atTop (nhds 0) :=
      Real.tendsto_exp_atBot.comp hneg
    have hmul := hexp.const_mul (es - ee)
    have hall := hmul.const_add ee
    have hfe : (fun n : ℕ => epsThreshold es ee d n)
        = fun n : ℕ => ee + (es - ee) * Real.exp (-((n : ℝ) / d)) :=
      funext fun n => epsThreshold_eq es ee d n
    rw [hfe]
    simpa using hall

theorem eps_threshold_decay_witness :
    (0 : ℝ) < 1 ∧ epsThreshold 1 0 1 0 = 1 :=
  ⟨one_pos, (eps_threshold_decay 1 0 1 one_pos one_pos).2.1⟩

lemma pushes_next_state_some {σ : Type} (aux : AuxKind) (soft : Bool) (horizon : ℕ)
    (env : ℕ → StepResult σ) (acts : ℕ → ℕ) :
    ∀ (fuel t : ℕ) (s : σ) (pend : PendingInfo σ),
      ((episodeLoop aux soft horizon env acts fuel t s pend).2).all
        (fun p => p.2.next_state.isSome) = true
  | 0, _, _, _ => rfl
  | fuel + 1, t, s, pend => by
    have ih := pushes_next_state_some aux soft horizon env acts fuel
    simp only [episodeLoop]
    split_ifs with hmid hdone hnn hnn <;>
      simp_all [List.all_append] <;>
      exact fun a b hm => ih _ _ _ a b hm

/-- C1 evidence.  Every transition the training loop pushes to replay memory
carries a present `next_state` (the observed next-state tensor), including
the transition flushed at episode termination; in a concrete one-step episode
that terminates immediately under the `sf` variant, the flushed terminal
transition is stored with `next_state = some s1`, not absent. -/
theorem terminal_flush_next_state_present :
    (∀ (σ : Type) (aux : AuxKind) (soft : Bool) (horizon : ℕ)
       (env : ℕ → StepResult σ) (acts : ℕ → ℕ) (fuel t : ℕ) (s : σ) (pend : PendingInfo σ),
      ((episodeLoop aux soft horizon env acts fuel t s pend).2).all
        (fun p => p.2.next_state.isSome) = true)
    ∧ (episodeLoop (σ := Bool) .sf false 10
        (fun _ => { obs := true, reward := 1, terminated := true, truncated := false,
                    virtualReward := 0 })
        (fun _ => 2) 5 0 false
        { prevState := false, prevAction := 0, prevReward := 0, prevVR := 0 }).2
      = [(0, { state := false, action := 2, next_state := some true, reward := 1,
               next_action := some 2, virtual_reward := none })] :=
  ⟨fun σ aux soft horizon env acts fuel t s pend =>
    pushes_next_state_some aux soft horizon env acts fuel t s pend, by decide⟩

end InvestRepr

namespace InvestRepr

lemma occursBefore_head {α : Type} (a b : α) {l : List α} (h : b ∈ l) :
    occursBefore a b (a :: l) := by
  obtain ⟨s, u, rfl⟩ := List.append_of_mem h
  exact ⟨[], s, u, rfl⟩

lemma adjacentIn_here {α : Type} (a b : α) (l : List α) : adjacentIn a b (a :: b :: l) :=
  ⟨[], l, rfl⟩

lemma endsWith_cons {α : Type} (x : α) {a : α} {l : List α}
    (h : ∃ l1, l = l1 ++ [a]) : ∃ l1, x :: l = l1 ++ [a] := by
  obtain ⟨l1, rfl⟩ := h
  exact ⟨x :: l1, rfl⟩

lemma endsWith_append {α : Type} (l0 : List α) {a : α} {l : List α}
    (h : ∃ l1, l = l1 ++ [a]) : ∃ l1, l0 ++ l = l1 ++ [a] := by
  induction l0 with
  | nil => exact h
  | cons x xs ih => exact endsWith_cons x ih

lemma delayed_push_ordering {σ : Type} (aux : AuxKind) (soft : Bool) (horizon : ℕ)
    (env : ℕ → StepResult σ) (acts : ℕ → ℕ) (hNN : needNext aux = true) :
    ∀ (fuel t : ℕ) (s : σ) (pend : PendingInfo σ) (k : ℕ),
      Ev.pushE k ∈ (episodeLoop aux soft horizon env acts fuel t s pend).1 →
      occursBefore (Ev.select (k + 1)) (Ev.pushE k)
          (episodeLoop aux soft horizon env acts fuel t s pend).1
      ∨ ∃ l1, (episodeLoop aux soft horizon env acts fuel t s pend).1 = l1 ++ [Ev.pushE k]
  | 0, t, s, pend, k => by
    intro h
    simp [episodeLoop] at h
  | fuel + 1, t, s, pend, k => by
    intro hmem
    by_cases hdone : (((env t).terminated || (env t).truncated) = true ∨ horizon < t)
    · simp only [episodeLoop] at hmem ⊢
      rw [if_pos hdone] at hmem ⊢
      simp only [hNN, eq_self_iff_true, true_and, if_true, List.nil_append] at hmem ⊢
      simp only [List.mem_cons, List.mem_append, List.mem_singleton] at hmem
      rcases hmem with h | h | h | h | h
      · exact absurd h (by simp)
      · by_cases ht : 0 < t
        · rw [if_pos ht] at h
          simp only [List.mem_singleton, Ev.pushE.injEq] at h
          subst h
          left
          rw [Nat.sub_add_cancel ht]
          exact occursBefore_head _ _ (by simp [ht])
        · rw [if_neg ht] at h
          simp at h
      · exact absurd h (by simp)
      · exact absurd h (by
          by_cases hs : soft = true <;> simp [hs])
      · rcases h with h | h
        swap
        · simp at h
        rcases h with ⟨rfl⟩
        right
        apply endsWith_cons
        apply endsWith_append
        apply endsWith_cons
        apply endsWith_append
        exact ⟨[], rfl⟩
    · simp only [episodeLoop] at hmem ⊢
      rw [if_neg hdone] at hmem ⊢
      simp only [hNN, eq_self_iff_true, true_and, if_true, List.nil_append] at hmem ⊢
      simp only [List.mem_cons, List.mem_append] at hmem
      rcases hmem with h | h | h | h
      · exact absurd h (by simp)
      · by_cases ht : 0 < t
        · rw [if_pos ht] at h
          simp only [List.mem_singleton, Ev.pushE.injEq] at h
          subst h
          left
          rw [Nat.sub_add_cancel ht]
          exact occursBefore_head _ _ (by simp [ht])
        · rw [if_neg ht] at h
          simp at h
      · exact absurd h (by simp)
      · rcases h with h | h
        · exact absurd h (by
            by_cases hs : soft = true <;> simp [hs])
        · have ih := delayed_push_ordering aux soft horizon env acts hNN fuel (t + 1)
            (env t).obs { prevState := s, prevAction := acts t,
                          prevReward := (env t).reward, prevVR := (env t).virtualReward } k h
          rcases ih with hob | hew
          · left
            apply occursBefore_cons
            apply occursBefore_append
            apply occursBefore_cons
            apply occursBefore_append
            exact hob
          · right
            apply endsWith_cons
            apply endsWith_append
            apply endsWith_cons
            apply endsWith_append
            exact hew

lemma immediate_push_ordering {σ : Type} (aux : AuxKind) (soft : Bool) (horizon : ℕ)
    (env : ℕ → StepResult σ) (acts : ℕ → ℕ) (hNN : needNext aux = false) :
    ∀ (fuel t : ℕ) (s : σ) (pend : PendingInfo σ) (k : ℕ),
      Ev.pushE k ∈ (episodeLoop aux soft horizon env acts fuel t s pend).1 →
      adjacentIn (Ev.envE k) (Ev.pushE k)
          (episodeLoop aux soft horizon env acts fuel t s pend).1
  | 0, t, s, pend, k => by
    intro h
    simp [episodeLoop] at h
  | fuel + 1, t, s, pend, k => by
    intro hmem
    by_cases hdone : (((env t).terminated || (env t).truncated) = true ∨ horizon < t)
    · simp only [episodeLoop] at hmem ⊢
      rw [if_pos hdone] at hmem ⊢
      simp only [hNN, Bool.false_eq_true, false_and, if_false, List.append_nil,
        List.nil_append, List.cons_append, List.singleton_append] at hmem ⊢
      simp only [List.mem_cons, List.mem_append, List.mem_singleton] at hmem
      rcases hmem with h | h | h | h
      · exact absurd h (by simp)
      · exact absurd h (by simp)
      · rcases h with ⟨rfl⟩
        apply adjacentIn_cons
        exact adjacentIn_here _ _ _
      · exact absurd h (by
          by_cases hs : soft = true <;> simp [hs])
    · simp only [episodeLoop] at hmem ⊢
      rw [if_neg hdone] at hmem ⊢
      simp only [hNN, Bool.false_eq_true, false_and, if_false, List.append_nil,
        List.nil_append, List.cons_append, List.singleton_append] at hmem ⊢
      simp only [List.mem_cons, List.mem_append, List.mem_singleton] at hmem
      rcases hmem with h | h | h | h | h
      · exact absurd h (by simp)
      · exact absurd h (by simp)
      · rcases h with ⟨rfl⟩
        apply adjacentIn_cons
        exact adjacentIn_here _ _ _
      · exact absurd h (by
          by_cases hs : soft = true <;> simp [hs])
      · have ih := immediate_push_ordering aux soft horizon env acts hNN fuel (t + 1)
          (env t).obs { prevState := s, prevAction := acts t,
                        prevReward := (env t).reward, prevVR := (env t).virtualReward } k h
        apply adjacentIn_cons
        apply adjacentIn_cons
        apply adjacentIn_cons
        apply adjacentIn_append
        exact ih

lemma soft_after_env {σ : Type} (aux : AuxKind) (horizon : ℕ)
    (env : ℕ → StepResult σ) (acts : ℕ → ℕ) :
    ∀ (fuel t : ℕ) (s : σ) (pend : PendingInfo σ) (k : ℕ),
      Ev.envE k ∈ (episodeLoop aux true horizon env acts fuel t s pend).1 →
      occursBefore (Ev.envE k) (Ev.softE k)
          (episodeLoop aux true horizon env acts fuel t s pend).1
  | 0, t, s, pend, k => by
    intro h
    simp [episodeLoop] at h
  | fuel + 1, t, s, pend, k => by
    intro hmem
    by_cases hdone : (((env t).terminated || (env t).truncated) = true ∨ horizon < t)
    · simp only [episodeLoop] at hmem ⊢
      rw [if_pos hdone] at hmem ⊢
      simp only [eq_self_iff_true, if_true, List.append_nil, List.nil_append,
        List.cons_append, List.singleton_append, List.append_assoc] at hmem ⊢
      simp only [List.mem_cons, List.mem_append, List.mem_singleton] at hmem
      rcases hmem with h | h | h | h
      · exact absurd h (by simp)
      · exact absurd h (by
          by_cases hc : needNext aux = true ∧ 0 < t <;> simp [hc])
      · rcases h with ⟨rfl⟩
        apply occursBefore_cons
        apply occursBefore_append
        apply occursBefore_head
        simp
      · exact absurd h (by
          by_cases hc : needNext aux = true <;> simp [hc])
    · simp only [episodeLoop] at hmem ⊢
      rw [if_neg hdone] at hmem ⊢
      simp only [eq_self_iff_true, if_true, List.append_nil, List.nil_append,
        List.cons_append, List.singleton_append, List.append_assoc] at hmem ⊢
      simp only [List.mem_cons, List.mem_append, List.mem_singleton] at hmem
      rcases hmem with h | h | h | h | h
      · exact absurd h (by simp)
      · exact absurd h (by
          by_cases hc : needNext aux = true ∧ 0 < t <;> simp [hc])
      · rcases h with ⟨rfl⟩
        apply occursBefore_cons
        apply occursBefore_append
        apply occursBefore_head
        simp
      · exact absurd h (by
          by_cases hc : needNext aux = true <;> simp [hc])
      · rcases h with h | h
        · exact absurd h (by simp)
        · have ih := soft_after_env aux horizon env acts fuel (t + 1)
            (env t).obs { prevState := s, prevAction := acts t,
                          prevReward := (env t).reward, prevVR := (env t).virtualReward } k h
          apply occursBefore_cons
          apply occursBefore_append
          apply occursBefore_cons
          apply occursBefore_append
          apply occursBefore_cons
          exact ih

/-- C4.  Storage protocol of the training loop: when the auxiliary variant
needs next-action information, a transition pushed for step `k` is pushed
only after the action of step `k+1` has been selected, or as the final flush
at episode termination (the last event of the episode trace); for every other
variant the step-`k` transition is pushed immediately after the step-`k`
environment step. -/
theorem delayed_storage_protocol (σ : Type) (aux : AuxKind) (soft : Bool) (horizon : ℕ)
    (env : ℕ → StepResult σ) (acts : ℕ → ℕ) (fuel t : ℕ) (s : σ) (pend : PendingInfo σ)
    (k : ℕ) :
    (needNext aux = true →
      Ev.pushE k ∈ (episodeLoop aux soft horizon env acts fuel t s pend).1 →
      occursBefore (Ev.select (k + 1)) (Ev.pushE k)
          (episodeLoop aux soft horizon env acts fuel t s pend).1
      ∨ ∃ l1, (episodeLoop aux soft horizon env acts fuel t s pend).1 = l1 ++ [Ev.pushE k])
    ∧ (needNext aux = false →
      Ev.pushE k ∈ (episodeLoop aux soft horizon env acts fuel t s pend).1 →
      adjacentIn (Ev.envE k) (Ev.pushE k)
          (episodeLoop aux soft horizon env acts fuel t s pend).1) :=
  ⟨fun hNN => delayed_push_ordering aux soft horizon env acts hNN fuel t s pend k,
   fun hNN => immediate_push_ordering aux soft horizon env acts hNN fuel t s pend k⟩

theorem delayed_storage_protocol_witness :
    needNext .sf = true
    ∧ Ev.pushE 0 ∈ (episodeLoop (σ := Bool) .sf false 10
        (fun _ => { obs := true, reward := 1, terminated := true, truncated := false,
                    virtualReward := 0 })
        (fun _ => 2) 5 0 false
        { prevState := false, prevAction := 0, prevReward := 0, prevVR := 0 }).1
    ∧ (occursBefore (Ev.select 1) (Ev.pushE 0)
        (episodeLoop (σ := Bool) .sf false 10
          (fun _ => { obs := true, reward := 1, terminated := true, truncated := false,
                      virtualReward := 0 })
          (fun _ => 2) 5 0 false
          { prevState := false, prevAction := 0, prevReward := 0, prevVR := 0 }).1
      ∨ ∃ l1, (episodeLoop (σ := Bool) .sf false 10
          (fun _ => { obs := true, reward := 1, terminated := true, truncated := false,
                      virtualReward := 0 })
          (fun _ => 2) 5 0 false
          { prevState := false, prevAction := 0, prevReward := 0, prevVR := 0 }).1
        = l1 ++ [Ev.pushE 0]) :=
  ⟨rfl, by decide,
   (delayed_storage_protocol Bool .sf false 10
      (fun _ => { obs := true, reward := 1, terminated := true, truncated := false,
                  virtualReward := 0 })
      (fun _ => 2) 5 0 false
      { prevState := false, prevAction := 0, prevReward := 0, prevVR := 0 } 0).1
    rfl (by decide)⟩

/-- C7.  When soft target synchronization is enabled, every environment step
of the episode trace is followed by a soft target update; each parameter is
updated to `policy * tau + target * (1 - tau)`; and for scalar parameters
with policy value 1, target value 0 and tau = 1/10 one update yields 1/10 and
a second update yields 19/100. -/
theorem soft_update_formula_and_schedule (σ : Type) (aux : AuxKind) (horizon : ℕ)
    (env : ℕ → StepResult σ) (acts : ℕ → ℕ) (fuel t : ℕ) (s : σ) (pend : PendingInfo σ)
    (k : ℕ) (tau : ℚ) (p q : List ℚ) (i : ℕ) (hp : i < p.length) (hq : i < q.length) :
    (Ev.envE k ∈ (episodeLoop aux true horizon env acts fuel t s pend).1 →
      occursBefore (Ev.envE k) (Ev.softE k)
          (episodeLoop aux true horizon env acts fuel t s pend).1)
    ∧ (softUpdateDict tau p q).getD i 0 = p.getD i 0 * tau + q.getD i 0 * (1 - tau)
    ∧ softUpdateDict (1/10) [1] [0] = [1/10]
    ∧ softUpdateDict (1/10) [1] (softUpdateDict (1/10) [1] [0]) = [19/100] :=
  ⟨soft_after_env aux horizon env acts fuel t s pend k,
   softUpdateDict_getD tau p q i hp hq,
   by norm_num [softUpdateDict],
   by norm_num [softUpdateDict]⟩

theorem soft_update_formula_and_schedule_witness :
    0 < [(5 : ℚ)].length
    ∧ (softUpdateDict 3 [5] [7]).getD 0 0
        = [(5 : ℚ)].getD 0 0 * 3 + [(7 : ℚ)].getD 0 0 * (1 - 3) :=
  ⟨by decide,
   (soft_update_formula_and_schedule Bool .ir 0
      (fun _ => { obs := false, reward := 0, terminated := false, truncated := false,
                  virtualReward := 0 })
      (fun _ => 0) 0 0 false
      { prevState := false, prevAction := 0, prevReward := 0, prevVR := 0 }
      0 3 [5] [7] 0 (by decide) (by decide)).2.1⟩

lemma hardSyncEvents_char (tu thr : ℕ) :
    ∀ (rs : List ℚ) (i consec : ℕ),
      hardSyncEvents false tu thr i consec rs
        = ((List.range (episodesBeforeStop thr consec rs)).map (fun j => i + j)).filter
            (fun j => decide (j % tu = 0))
  | [], i, consec => rfl
  | r :: rs, i, consec => by
    have ih := hardSyncEvents_char tu thr rs (i + 1) (if r = 1 then consec + 1 else 0)
    by_cases hc : (if r = 1 then consec + 1 else 0) = thr
    · simp [hardSyncEvents, episodesBeforeStop, hc]
    · have hstep : episodesBeforeStop thr consec (r :: rs)
          = episodesBeforeStop thr (if r = 1 then consec + 1 else 0) rs + 1 := by
        simp [episodesBeforeStop, hc]
      have hlhs : hardSyncEvents false tu thr i consec (r :: rs)
          = (if i % tu = 0 then [i] else []) ++
              hardSyncEvents false tu thr (i + 1) (if r = 1 then consec + 1 else 0) rs := by
        simp [hardSyncEvents, hc]
      rw [hlhs, hstep, ih, List.range_succ_eq_map]
      simp only [List.map_cons, List.map_map, List.filter_cons]
      have hcomp : ((fun j => i + j) ∘ Nat.succ) = fun j => (i + 1) + j := by
        funext j
        simp [Function.comp]
        omega
      rw [hcomp]
      by_cases hi : i % tu = 0
      · simp [hi]
      · simp [hi]

/-- C8 counterexample.  With hard synchronization (soft disabled),
`target_update = 1`, success threshold 1, a single episode of return 1:
episode 0 runs and its index is a multiple of `target_update`, yet no hard
synchronization happens, because the streak break precedes the
synchronization check. -/
theorem hard_sync_skipped_on_streak_break :
    hardSyncEvents false 1 1 0 0 [1] = [] ∧ 0 % 1 = 0 := by
  constructor
  · rfl
  · rfl

/-- C8 amended.  When soft synchronization is disabled, the hard
synchronization runs exactly at the episode indices that are multiples of
`target_update` among the episodes whose per-episode tail completes before
the consecutive-success streak reaches its threshold (an episode that
triggers the streak break skips the check); and a hard synchronization call
copies the policy parameters verbatim into the target network. -/
theorem hard_sync_schedule_amended (σ : Type) (tu thr : ℕ) (rewards : List ℚ) :
    hardSyncEvents false tu thr 0 0 rewards
      = (List.range (episodesBeforeStop thr 0 rewards)).filter
          (fun j => decide (j % tu = 0))
    ∧ ∀ st : AgentState σ, (hardSync st).targetParams = st.policyParams := by
  constructor
  · have h := hardSyncEvents_char tu thr rewards 0 0
    simpa using h
  · intro st
    rfl

end InvestRepr
